import Mathlib

/-!
Verification of the `EventPlayer` virtual clock / event scheduler of
`src/FleetDashboard.jsx`, together with the dashboard's `stepForward`
handler.

Modelling conventions:
* A point in time (milliseconds, as produced by `Date.getTime` / `Date.now`)
  is a rational number.  `Date.now()` never returns `0` in practice (it is
  milliseconds since 1970 and construction happens after 1970), so the
  JavaScript falsy test `!this.baseReal` is modelled as `baseReal = none`
  where `none` stands for `null`.
* A possibly-invalid time value (`new Date(x)` where parsing may fail, or an
  arithmetic result that may be `NaN`) is an `Option ℚ`, `none` standing for
  `NaN` / an Invalid Date.  Every JavaScript comparison involving `NaN`
  is false, and `NaN`-propagating arithmetic is `Option.map`.
* The timer handle `this.timer` is a `Bool`: `true` iff an interval is
  currently installed.  A tick can only fire while it is `true`.
* Callbacks (`onEvent`, `onTick`) are modelled by returning the list of
  events delivered by an operation; the scheduler itself never reads the
  callbacks' results, so this is faithful.
-/

namespace Fleet

/-- A telemetry record as the player sees it: `eid` identifies the record
(the `event_id` payload), `timestamp` is the result of parsing its
timestamp string with `new Date`, with `none` standing for an unparseable
timestamp (`NaN` time value). -/
structure Event where
  eid : Nat
  timestamp : Option ℚ
deriving DecidableEq

/-- The sort comparator `new Date(a.timestamp) - new Date(b.timestamp)`
read as a "may stay before" test: the comparator value is `≤ 0`.
When either date is invalid the difference is `NaN`, which the ECMAScript
sort treats as `+0`, hence `true` here. -/
def sortLE (a b : Event) : Bool :=
  match a.timestamp, b.timestamp with
  | some x, some y => decide (x ≤ y)
  | _, _ => true

/-- Stable insertion of one event into an already handled list; together
with `sortEvents` this models the (stable, per ECMAScript 2019)
`Array.prototype.sort` under the comparator `sortLE`. -/
def insertEv (x : Event) : List Event → List Event
  | [] => [x]
  | y :: ys => if sortLE x y then x :: y :: ys else y :: insertEv x ys

/-- Model of `events.slice().sort((a, b) => new Date(a.timestamp) - new Date(b.timestamp))`:
a stable sort of a copy of the input list. -/
def sortEvents : List Event → List Event
  | [] => []
  | x :: xs => insertEv x (sortEvents xs)

/-- The test `new Date(e.timestamp) <= now` — false when either side is
invalid. -/
def due (now : Option ℚ) (e : Event) : Bool :=
  match now, e.timestamp with
  | some n, some t => decide (t ≤ n)
  | _, _ => false

/-- The test `new Date(e.timestamp) > now` — the predicate of `stepForward`. -/
def afterNow (now : Option ℚ) (e : Event) : Bool :=
  match now, e.timestamp with
  | some n, some t => decide (n < t)
  | _, _ => false

/-- The test `new Date(e.timestamp) >= target` — the predicate used by
`seek`. -/
def atOrAfter (tgt : Option ℚ) (e : Event) : Bool :=
  match tgt, e.timestamp with
  | some t, some x => decide (t ≤ x)
  | _, _ => false

/-- Result of `findIndex` with a `-1` result replaced by the list length,
exactly as `seek` post-processes it. -/
def findIdxGE (tgt : Option ℚ) : List Event → Nat
  | [] => 0
  | e :: es => if atOrAfter tgt e then 0 else findIdxGE tgt es + 1

/-- Event `a` happens strictly before event `b`: both timestamps parse and
are strictly increasing.  Used to state properties of logs without
duplicate timestamps. -/
def strictBefore (a b : Event) : Bool :=
  match a.timestamp, b.timestamp with
  | some x, some y => decide (x < y)
  | _, _ => false

/-- The mutable state of an `EventPlayer` instance. -/
structure Player where
  events : List Event
  speed : ℚ
  timer : Bool
  baseReal : Option ℚ
  baseSim : Option ℚ
  pointer : Nat
  simNow : Option ℚ
deriving DecidableEq

/-- The constructor's initial `baseSim`: `startTime` if given, else the
first sorted event's timestamp, else `Date.now()`. -/
def startOf (evs : List Event) (startTime : Option ℚ) (wallNow : ℚ) : Option ℚ :=
  match startTime with
  | some t => some t
  | none =>
    match evs with
    | e :: _ => e.timestamp
    | [] => some wallNow

/-- The `EventPlayer` constructor, called at wall-clock time `wallNow`.
`startTime` is the parsed `startTime` option (`none` when omitted). -/
def mkPlayer (input : List Event) (startTime : Option ℚ) (speed : ℚ)
    (wallNow : ℚ) : Player :=
  { events := sortEvents input
    speed := speed
    timer := false
    baseReal := none
    baseSim := startOf (sortEvents input) startTime wallNow
    pointer := 0
    simNow := startOf (sortEvents input) startTime wallNow }

/-- Query `getSimTime()` evaluated when `Date.now()` returns `wallNow`. -/
def getSimTime (p : Player) (wallNow : ℚ) : Option ℚ :=
  match p.baseReal with
  | none => p.baseSim
  | some br => p.baseSim.map (fun bs => bs + (wallNow - br) * p.speed)

/-- Operation `setSpeed(s)` at wall-clock time `wallNow`. -/
def setSpeed (p : Player) (s : ℚ) (wallNow : ℚ) : Player :=
  { p with
    simNow := getSimTime p wallNow
    baseSim := getSimTime p wallNow
    baseReal := some wallNow
    speed := s }

/-- Operation `play(s)` at wall-clock time `wallNow`: first `setSpeed(s)`,
then, only if no timer is installed, re-anchor `baseReal` and install the
interval. -/
def play (p : Player) (s : ℚ) (wallNow : ℚ) : Player :=
  let p1 := setSpeed p s wallNow
  if p1.timer then p1 else { p1 with baseReal := some wallNow, timer := true }

/-- Operation `pause()`: clears the interval handle and nothing else. -/
def pause (p : Player) : Player :=
  { p with timer := false }

/-- Operation `seek(iso)` at wall-clock time `wallNow`, where `tgt` is the
parsed target (`none` for an unparseable argument). -/
def seek (p : Player) (tgt : Option ℚ) (wallNow : ℚ) : Player :=
  { p with
    baseSim := tgt
    baseReal := some wallNow
    simNow := tgt
    pointer := findIdxGE tgt p.events }

/-- The `while` loop of `_tick`: splits off the longest prefix of due
events (delivered in order) from the rest. -/
def spanDue (now : Option ℚ) : List Event → List Event × List Event
  | [] => ([], [])
  | e :: es =>
    if due now e then
      ((spanDue now es).1.cons e, (spanDue now es).2)
    else ([], e :: es)

/-- Callback `_tick()` fired when `Date.now()` returns `wallNow`: computes
the simulated time, delivers every due event from the cursor on, and
auto-pauses when the cursor reaches the end of the log.  Returns the new
state and the list of events passed to `onEvent`, in order. -/
def tick (p : Player) (wallNow : ℚ) : Player × List Event :=
  let now := getSimTime p wallNow
  let d := (spanDue now (p.events.drop p.pointer)).1
  let p1 : Player := { p with simNow := now, pointer := p.pointer + d.length }
  (if p1.events.length ≤ p1.pointer then pause p1 else p1, d)

/-- A run of the installed interval: the tick scheduled at each wall time
fires only while a timer is installed (`clearInterval` stops the run).
Returns the final state and the concatenation of all deliveries. -/
def runTicks (p : Player) : List ℚ → Player × List Event
  | [] => (p, [])
  | w :: ws =>
    if p.timer then
      ((runTicks (tick p w).1 ws).1, (tick p w).2 ++ (runTicks (tick p w).1 ws).2)
    else (p, [])

/-- The dashboard's `stepForward` handler at wall-clock time `wallNow`:
pause, compute the current simulated time, find the first event strictly
after it; if found, seek to its timestamp and deliver it to the activity
feed.  Returns the new player state and the delivered events. -/
def stepForward (p : Player) (wallNow : ℚ) : Player × List Event :=
  match (pause p).events.find? (afterNow (getSimTime (pause p) wallNow)) with
  | some e => (seek (pause p) e.timestamp wallNow, [e])
  | none => (pause p, [])

/-- Repeated `stepForward` clicks at the given wall-clock times. -/
def runSteps (p : Player) : List ℚ → Player × List Event
  | [] => (p, [])
  | w :: ws =>
    ((runSteps (stepForward p w).1 ws).1,
      (stepForward p w).2 ++ (runSteps (stepForward p w).1 ws).2)

/-- Re-anchoring in `setSpeed` is exact: the simulated time computed right
after the call (zero elapsed wall time) equals the one computed right
before. -/
theorem getSimTime_setSpeed (p : Player) (s w : ℚ) :
    getSimTime (setSpeed p s w) w = getSimTime p w := by
  simp only [setSpeed, getSimTime]
  cases p.baseReal with
  | none => cases p.baseSim <;> simp
  | some br => cases p.baseSim <;> simp

/-- Two `play` calls at the same wall-clock instant leave the same state as
one. -/
theorem play_play (p : Player) (s : ℚ) (w : ℚ) :
    play (play p s w) s w = play p s w := by
  cases p with
  | mk ev sp tm br bs ptr sn =>
    cases tm <;> cases br <;> cases bs <;>
      simp [play, setSpeed, getSimTime]

theorem spanDue_append (now : Option ℚ) (l : List Event) :
    (spanDue now l).1 ++ (spanDue now l).2 = l := by
  induction l with
  | nil => simp [spanDue]
  | cons e es ih =>
    by_cases h : due now e = true
    · simp [spanDue, h, ih]
    · simp [spanDue, h]

theorem spanDue_all (now : Option ℚ) (l : List Event)
    (h : ∀ e ∈ l, due now e = true) : spanDue now l = (l, []) := by
  induction l with
  | nil => simp [spanDue]
  | cons e es ih =>
    have he : due now e = true := h e (by simp)
    have := ih (fun x hx => h x (by simp [hx]))
    simp [spanDue, he, this]

theorem tick_delivered (p : Player) (w : ℚ) :
    (tick p w).2 = (spanDue (getSimTime p w) (p.events.drop p.pointer)).1 := by
  simp only [tick, pause]

theorem tick_pointer (p : Player) (w : ℚ) :
    (tick p w).1.pointer =
      p.pointer + (spanDue (getSimTime p w) (p.events.drop p.pointer)).1.length := by
  simp only [tick, pause]; split <;> rfl

theorem tick_drop (p : Player) (w : ℚ) :
    (tick p w).2 ++ p.events.drop (tick p w).1.pointer = p.events.drop p.pointer := by
  rw [tick_delivered, tick_pointer]
  obtain ⟨d, r, hd, hdr⟩ : ∃ d r,
      spanDue (getSimTime p w) (p.events.drop p.pointer) = (d, r) ∧
        d ++ r = p.events.drop p.pointer :=
    ⟨_, _, rfl, spanDue_append _ _⟩
  rw [hd]
  have hstep : p.events.drop (p.pointer + d.length) = r := by
    calc p.events.drop (p.pointer + d.length)
        = (p.events.drop p.pointer).drop d.length := by
          rw [List.drop_drop, Nat.add_comm]
      _ = (d ++ r).drop d.length := by rw [← hdr]
      _ = r := List.drop_left _ _
  rw [hstep, ← hdr]

theorem tick_timer_cases (p : Player) (w : ℚ) :
    (tick p w).1.timer = p.timer ∨ (tick p w).1.events.length ≤ (tick p w).1.pointer := by
  by_cases h : p.events.length ≤
      p.pointer + (spanDue (getSimTime p w) (p.events.drop p.pointer)).1.length
  · right; simp [tick, pause, h]
  · left; simp [tick, pause, h]

theorem tick_timer_of_exhaust (p : Player) (w : ℚ)
    (h : (tick p w).1.events.length ≤ (tick p w).1.pointer) :
    (tick p w).1.timer = false := by
  by_cases hc : p.events.length ≤
      p.pointer + (spanDue (getSimTime p w) (p.events.drop p.pointer)).1.length
  · simp [tick, pause, hc]
  · simp [tick, pause, hc] at h

theorem tick_events (p : Player) (w : ℚ) : (tick p w).1.events = p.events := by
  simp only [tick, pause]; split <;> rfl

theorem tick_baseSim (p : Player) (w : ℚ) : (tick p w).1.baseSim = p.baseSim := by
  simp only [tick, pause]; split <;> rfl

theorem tick_baseReal (p : Player) (w : ℚ) : (tick p w).1.baseReal = p.baseReal := by
  simp only [tick, pause]; split <;> rfl

theorem tick_speed (p : Player) (w : ℚ) : (tick p w).1.speed = p.speed := by
  simp only [tick, pause]; split <;> rfl

theorem tick_getSimTime (p : Player) (w w2 : ℚ) :
    getSimTime (tick p w).1 w2 = getSimTime p w2 := by
  simp only [getSimTime, tick_baseSim, tick_baseReal, tick_speed]

theorem runTicks_events (ws : List ℚ) (p : Player) :
    (runTicks p ws).1.events = p.events := by
  induction ws generalizing p with
  | nil => rfl
  | cons w ws ih =>
    cases ht : p.timer with
    | false => simp [runTicks, ht]
    | true => simp [runTicks, ht, ih, tick_events]

theorem runTicks_getSimTime (ws : List ℚ) (p : Player) (w2 : ℚ) :
    getSimTime (runTicks p ws).1 w2 = getSimTime p w2 := by
  induction ws generalizing p with
  | nil => rfl
  | cons w ws ih =>
    cases ht : p.timer with
    | false => simp [runTicks, ht]
    | true => simp [runTicks, ht, ih, tick_getSimTime]

theorem runTicks_slice (ws : List ℚ) (p : Player) :
    (runTicks p ws).2 ++ p.events.drop (runTicks p ws).1.pointer =
      p.events.drop p.pointer := by
  induction ws generalizing p with
  | nil => simp [runTicks]
  | cons w ws ih =>
    cases ht : p.timer with
    | false => simp [runTicks, ht]
    | true =>
      simp only [runTicks, ht, if_true]
      rw [List.append_assoc]
      have h1 := ih (tick p w).1
      rw [tick_events] at h1
      rw [h1]
      exact tick_drop p w

theorem runTicks_paused (p : Player) (ws : List ℚ) (h : p.timer = false) :
    runTicks p ws = (p, []) := by
  cases ws with
  | nil => rfl
  | cons a as => simp [runTicks, h]

/-- Completeness of a play-through: if some scheduled tick's simulated time
covers every pending event, the run delivers exactly the pending suffix of
the log. -/
theorem runTicks_complete (ws : List ℚ) (p : Player) (ht : p.timer = true)
    (hdom : ∃ w ∈ ws, ∀ e ∈ p.events.drop p.pointer, due (getSimTime p w) e = true) :
    (runTicks p ws).2 = p.events.drop p.pointer := by
  induction ws generalizing p with
  | nil => simp at hdom
  | cons w ws ih =>
    simp only [runTicks, ht, if_true]
    obtain ⟨w0, hw0, hall⟩ := hdom
    rcases List.mem_cons.mp hw0 with rfl | hw0tail
    · have hspan : spanDue (getSimTime p w0) (p.events.drop p.pointer) =
          (p.events.drop p.pointer, []) := spanDue_all _ _ hall
      have hd : (tick p w0).2 = p.events.drop p.pointer := by
        rw [tick_delivered, hspan]
      have hdrop : p.events.drop (tick p w0).1.pointer = [] := by
        have h := tick_drop p w0
        rw [hd] at h
        have h2 : p.events.drop p.pointer ++ p.events.drop (tick p w0).1.pointer =
            p.events.drop p.pointer ++ [] := by
          rw [List.append_nil]; exact h
        exact List.append_cancel_left h2
      have hrest : (runTicks (tick p w0).1 ws).2 = [] := by
        have hs := runTicks_slice ws (tick p w0).1
        rw [tick_events, hdrop] at hs
        exact (List.append_eq_nil.mp hs).1
      rw [hd, hrest, List.append_nil]
    · cases htt : (tick p w).1.timer with
      | true =>
        have hdom2 : ∃ w2 ∈ ws, ∀ e ∈ (tick p w).1.events.drop (tick p w).1.pointer,
            due (getSimTime (tick p w).1 w2) e = true := by
          refine ⟨w0, hw0tail, fun e he => ?_⟩
          rw [tick_getSimTime]
          apply hall
          rw [tick_events] at he
          rw [← tick_drop p w]
          exact List.mem_append_right _ he
        have := ih (tick p w).1 htt hdom2
        rw [this, tick_events]
        exact tick_drop p w
      | false =>
        have hex : (tick p w).1.events.length ≤ (tick p w).1.pointer := by
          rcases tick_timer_cases p w with hc | hc
          · rw [ht] at hc; exact absurd (hc.trans rfl) (by simp [htt])
          · exact hc
        have hdrop : p.events.drop (tick p w).1.pointer = [] := by
          rw [tick_events] at hex
          exact List.drop_eq_nil_of_le hex
        have hrest : runTicks (tick p w).1 ws = ((tick p w).1, []) := by
          cases ws with
          | nil => rfl
          | cons a as => simp [runTicks, htt]
        rw [hrest]
        have := tick_drop p w
        rw [hdrop, List.append_nil] at this
        simpa using this

theorem sortLE_total (a b : Event) (h : sortLE a b = false) : sortLE b a = true := by
  unfold sortLE at h ⊢
  cases ha : a.timestamp with
  | none => simp [ha] at h
  | some x =>
    cases hb : b.timestamp with
    | none => simp [ha, hb] at h
    | some y =>
      simp [ha, hb] at h ⊢
      exact le_of_lt h

theorem insertEv_perm (x : Event) (l : List Event) : (insertEv x l).Perm (x :: l) := by
  induction l with
  | nil => simp [insertEv]
  | cons y ys ih =>
    by_cases h : sortLE x y = true
    · simp [insertEv, h]
    · simp only [insertEv, h, if_false, Bool.false_eq_true]
      exact (ih.cons y).trans (List.Perm.swap x y ys)

theorem sortEvents_perm (l : List Event) : (sortEvents l).Perm l := by
  induction l with
  | nil => simp [sortEvents]
  | cons x xs ih =>
    exact (insertEv_perm x (sortEvents xs)).trans (ih.cons x)

theorem mem_insertEv {z x : Event} {l : List Event} :
    z ∈ insertEv x l ↔ z = x ∨ z ∈ l := by
  constructor
  · intro h
    have := (insertEv_perm x l).mem_iff.mp h
    simpa using this
  · intro h
    apply (insertEv_perm x l).mem_iff.mpr
    simpa using h

theorem insertEv_pairwise (x : Event) (l : List Event)
    (hvx : x.timestamp.isSome) (hvl : ∀ e ∈ l, e.timestamp.isSome)
    (hs : l.Pairwise (fun a b => sortLE a b = true)) :
    (insertEv x l).Pairwise (fun a b => sortLE a b = true) := by
  induction l with
  | nil => simp [insertEv]
  | cons y ys ih =>
    rcases List.pairwise_cons.mp hs with ⟨hy, hys⟩
    by_cases h : sortLE x y = true
    · simp only [insertEv, h, if_true]
      refine List.pairwise_cons.mpr ⟨?_, hs⟩
      intro z hz
      rcases List.mem_cons.mp hz with rfl | hz2
      · exact h
      · obtain ⟨tx, htx⟩ := Option.isSome_iff_exists.mp hvx
        obtain ⟨ty, hty⟩ := Option.isSome_iff_exists.mp (hvl y (by simp))
        obtain ⟨tz, htz⟩ := Option.isSome_iff_exists.mp (hvl z (by simp [hz2]))
        have h1 : tx ≤ ty := by simpa [sortLE, htx, hty] using h
        have h2 : ty ≤ tz := by simpa [sortLE, hty, htz] using hy z hz2
        simp [sortLE, htx, htz]
        exact h1.trans h2
    · simp only [insertEv, h, if_false, Bool.false_eq_true]
      refine List.pairwise_cons.mpr ⟨?_, ih (fun e he => hvl e (by simp [he])) hys⟩
      intro z hz
      rcases mem_insertEv.mp hz with rfl | hz2
      · exact sortLE_total _ _ (by simpa using h)
      · exact hy z hz2

theorem sortEvents_pairwise (l : List Event) (hv : ∀ e ∈ l, e.timestamp.isSome) :
    (sortEvents l).Pairwise (fun a b => sortLE a b = true) := by
  induction l with
  | nil => simp [sortEvents]
  | cons x xs ih =>
    apply insertEv_pairwise
    · exact hv x (by simp)
    · intro e he
      exact hv e (by simp [(sortEvents_perm xs).mem_iff.mp he])
    · exact ih (fun e he => hv e (by simp [he]))

theorem sortEvents_eq_self (l : List Event)
    (hs : l.Pairwise (fun a b => sortLE a b = true)) : sortEvents l = l := by
  induction l with
  | nil => rfl
  | cons x xs ih =>
    rcases List.pairwise_cons.mp hs with ⟨hx, hxs⟩
    have hrec : sortEvents xs = xs := ih hxs
    simp only [sortEvents, hrec]
    cases xs with
    | nil => rfl
    | cons y ys => simp [insertEv, hx y (by simp)]

theorem filter_insertEv_ne (x : Event) (l : List Event) (t : ℚ)
    (hx : ¬ x.timestamp = some t) :
    (insertEv x l).filter (fun e => decide (e.timestamp = some t)) =
      l.filter (fun e => decide (e.timestamp = some t)) := by
  induction l with
  | nil => simp [insertEv, hx]
  | cons y ys ih =>
    by_cases h : sortLE x y = true
    · simp [insertEv, h, hx]
    · simp only [insertEv, h, if_false, Bool.false_eq_true]
      by_cases hy : y.timestamp = some t
      · simp [List.filter_cons, hy, ih]
      · simp [List.filter_cons, hy, ih]

theorem filter_insertEv_eq (x : Event) (l : List Event) (t : ℚ)
    (hx : x.timestamp = some t) (hvl : ∀ e ∈ l, e.timestamp.isSome)
    (hs : l.Pairwise (fun a b => sortLE a b = true)) :
    (insertEv x l).filter (fun e => decide (e.timestamp = some t)) =
      x :: l.filter (fun e => decide (e.timestamp = some t)) := by
  induction l with
  | nil => simp [insertEv, hx]
  | cons y ys ih =>
    rcases List.pairwise_cons.mp hs with ⟨hy, hys⟩
    by_cases h : sortLE x y = true
    · simp [insertEv, h, hx]
    · simp only [insertEv, h, if_false, Bool.false_eq_true]
      obtain ⟨ty, hty⟩ := Option.isSome_iff_exists.mp (hvl y (by simp))
      have hlt : ty < t := by
        have h2 := h
        simp [sortLE, hx, hty] at h2
        exact h2
      have hyne : ¬ y.timestamp = some t := by
        rw [hty]
        simp
        exact ne_of_lt hlt
      simp [List.filter_cons, hyne, ih (fun e he => hvl e (by simp [he])) hys]

/-- Stability of the constructor's sort: for every timestamp, the events
carrying that timestamp appear in the sorted log in their original input
order. -/
theorem sortEvents_filter (l : List Event) (t : ℚ)
    (hv : ∀ e ∈ l, e.timestamp.isSome) :
    (sortEvents l).filter (fun e => decide (e.timestamp = some t)) =
      l.filter (fun e => decide (e.timestamp = some t)) := by
  induction l with
  | nil => rfl
  | cons x xs ih =>
    have hvxs : ∀ e ∈ xs, e.timestamp.isSome := fun e he => hv e (by simp [he])
    have hvs : ∀ e ∈ sortEvents xs, e.timestamp.isSome := fun e he =>
      hvxs e ((sortEvents_perm xs).mem_iff.mp he)
    by_cases hx : x.timestamp = some t
    · have := filter_insertEv_eq x (sortEvents xs) t hx hvs (sortEvents_pairwise xs hvxs)
      simp only [sortEvents, this, ih hvxs, List.filter_cons, hx]
      simp
    · have := filter_insertEv_ne x (sortEvents xs) t hx
      simp only [sortEvents, this, ih hvxs, List.filter_cons]
      simp [hx]

theorem findIdxGE_le_length (tgt : Option ℚ) (l : List Event) :
    findIdxGE tgt l ≤ l.length := by
  induction l with
  | nil => simp [findIdxGE]
  | cons e es ih =>
    by_cases h : atOrAfter tgt e = true
    · simp [findIdxGE, h]
    · simp only [findIdxGE, h, if_false, Bool.false_eq_true, List.length_cons]
      omega

theorem findIdxGE_take (tgt : Option ℚ) (l : List Event) :
    ∀ e ∈ l.take (findIdxGE tgt l), atOrAfter tgt e = false := by
  induction l with
  | nil => simp
  | cons e es ih =>
    by_cases h : atOrAfter tgt e = true
    · simp [findIdxGE, h]
    · simp only [findIdxGE, h, if_false, Bool.false_eq_true, List.take_succ_cons]
      intro z hz
      rcases List.mem_cons.mp hz with rfl | hz2
      · simpa using h
      · exact ih z hz2

theorem findIdxGE_head (tgt : Option ℚ) (l : List Event) :
    ∀ e, (l.drop (findIdxGE tgt l)).head? = some e → atOrAfter tgt e = true := by
  induction l with
  | nil => simp
  | cons x xs ih =>
    by_cases hx : atOrAfter tgt x = true
    · intro e he
      simp [findIdxGE, hx] at he
      rw [← he]
      exact hx
    · intro e he
      apply ih
      simpa [findIdxGE, hx] using he

theorem find?_first (pr : Event → Bool) (l1 : List Event) (x : Event) (l2 : List Event)
    (h1 : ∀ y ∈ l1, pr y = false) (hx : pr x = true) :
    (l1 ++ x :: l2).find? pr = some x := by
  induction l1 with
  | nil => simp [List.find?, hx]
  | cons y ys ih =>
    have hy : pr y = false := h1 y (by simp)
    simp only [List.cons_append, List.find?, hy]
    exact ih (fun z hz => h1 z (by simp [hz]))

theorem pause_events (p : Player) : (pause p).events = p.events := rfl

theorem pause_getSimTime (p : Player) (w : ℚ) :
    getSimTime (pause p) w = getSimTime p w := rfl

theorem seek_events (p : Player) (tgt : Option ℚ) (w : ℚ) :
    (seek p tgt w).events = p.events := rfl

theorem seek_getSimTime (p : Player) (t w : ℚ) :
    getSimTime (seek p (some t) w) w = some t := by
  simp [seek, getSimTime]

theorem strict_pairwise_sortLE (l : List Event)
    (hs : l.Pairwise (fun a b => strictBefore a b = true)) :
    l.Pairwise (fun a b => sortLE a b = true) := by
  refine hs.imp ?_
  intro a b hab
  unfold strictBefore at hab
  unfold sortLE
  cases ha : a.timestamp with
  | none => simp [ha] at hab
  | some x =>
    cases hb : b.timestamp with
    | none => simp [ha, hb] at hab
    | some y =>
      simp [ha, hb] at hab ⊢
      exact le_of_lt hab

/-- One `stepForward` click from simulated time equal to `cur`'s timestamp
delivers the next event and moves the simulated time to its timestamp;
repeated clicks at a fixed wall instant therefore deliver the whole
remaining suffix, one event per click. -/
theorem step_run (w : ℚ) (rest : List Event) : ∀ (pre : List Event) (cur : Event)
    (q : Player), q.events = pre ++ cur :: rest →
    (∀ e ∈ q.events, e.timestamp.isSome) →
    q.events.Pairwise (fun a b => strictBefore a b = true) →
    getSimTime q w = cur.timestamp →
    (runSteps q (List.replicate rest.length w)).2 = rest := by
  induction rest with
  | nil =>
    intro pre cur q _ _ _ _
    rfl
  | cons nxt rest2 ih =>
    intro pre cur q hev hv hs hnow
    obtain ⟨tc, htc⟩ := Option.isSome_iff_exists.mp (hv cur (by simp [hev]))
    obtain ⟨tn, htn⟩ := Option.isSome_iff_exists.mp (hv nxt (by simp [hev]))
    rw [hev] at hs
    obtain ⟨hpre, hrest, hcross⟩ := List.pairwise_append.mp hs
    have hcn : tc < tn := by
      have hpair : strictBefore cur nxt = true :=
        (List.pairwise_cons.mp hrest).1 nxt (by simp)
      simpa [strictBefore, htc, htn] using hpair
    have hfind : (pause q).events.find? (afterNow (getSimTime (pause q) w)) = some nxt := by
      rw [pause_events, pause_getSimTime, hnow, htc, hev]
      have hassoc : pre ++ cur :: nxt :: rest2 = (pre ++ [cur]) ++ nxt :: rest2 := by
        simp
      rw [hassoc]
      apply find?_first
      · intro y hy
        rcases List.mem_append.mp hy with hy1 | hy2
        · obtain ⟨ty, hty⟩ := Option.isSome_iff_exists.mp
            (hv y (by simp [hev, hy1]))
          have hyc : strictBefore y cur = true := hcross y hy1 cur (by simp)
          have hlt : ty < tc := by simpa [strictBefore, hty, htc] using hyc
          simp only [afterNow, hty, decide_eq_false_iff_not]
          exact not_lt.mpr hlt.le
        · have hyeq : y = cur := by simpa using hy2
          subst hyeq
          simp [afterNow, htc]
      · simp only [afterNow, htn, decide_eq_true_eq]
        exact hcn
    have hstep : stepForward q w = (seek (pause q) nxt.timestamp w, [nxt]) := by
      simp [stepForward, hfind]
    have hev2 : (seek (pause q) nxt.timestamp w).events = (pre ++ [cur]) ++ nxt :: rest2 := by
      rw [seek_events, pause_events, hev]
      simp
    have hv2 : ∀ e ∈ (seek (pause q) nxt.timestamp w).events, e.timestamp.isSome := by
      rw [seek_events, pause_events]
      exact hv
    have hs2 : (seek (pause q) nxt.timestamp w).events.Pairwise
        (fun a b => strictBefore a b = true) := by
      rw [seek_events, pause_events, hev]
      exact hs
    have hnow2 : getSimTime (seek (pause q) nxt.timestamp w) w = nxt.timestamp := by
      rw [htn]
      exact seek_getSimTime _ _ _
    have hrec := ih (pre ++ [cur]) nxt (seek (pause q) nxt.timestamp w) hev2 hv2 hs2 hnow2
    simp only [List.length_cons, List.replicate_succ, runSteps, hstep, hrec]
    rfl

theorem stepForward_events_t (p : Player) (w : ℚ) :
    (stepForward p w).1.events = p.events := by
  unfold stepForward
  cases hf : (pause p).events.find? (afterNow (getSimTime (pause p) w)) with
  | none => rfl
  | some e => rfl

theorem play_events_t (p : Player) (s w : ℚ) : (play p s w).events = p.events := by
  simp only [play, setSpeed]; split <;> rfl

theorem play_pointer_t (p : Player) (s w : ℚ) : (play p s w).pointer = p.pointer := by
  simp only [play, setSpeed]; split <;> rfl

theorem play_timer_t (p : Player) (s w : ℚ) (h : p.timer = false) :
    (play p s w).timer = true := by
  simp [play, setSpeed, h]

theorem play_timer_run (p : Player) (s w : ℚ) (h : p.timer = true) :
    play p s w = setSpeed p s w := by
  simp [play, setSpeed, h]

/-- C1: while running, `getSimTime` follows the anchor formula, but `pause`
does NOT freeze the simulated clock.  The code clears the interval handle
only; `baseReal` stays set, so `getSimTime` keeps advancing with wall time
after `pause` returns.  With one event at t = 0, construction at wall time
500, `play` at speed 1 at wall time 1000, then `pause`: the value at wall
time 2000 is 1000 but at wall time 5000 it is 4000, so it is not frozen at
the pause-time value, contradicting the specified pause semantics. -/
theorem C1_pause_keeps_clock_running :
    getSimTime (pause (play (mkPlayer [⟨0, some 0⟩] none 1 500) 1 1000)) 2000 = some 1000 ∧
    getSimTime (pause (play (mkPlayer [⟨0, some 0⟩] none 1 500) 1 1000)) 5000 = some 4000 ∧
    (pause (play (mkPlayer [⟨0, some 0⟩] none 1 500) 1 1000)).timer = false := by
  refine ⟨?_, ?_, rfl⟩ <;>
    norm_num [mkPlayer, play, setSpeed, pause, getSimTime, sortEvents, insertEv, startOf]

/-- C2: over a full uninterrupted play-through (some tick's simulated time
covers every event of a log with parseable timestamps), the sequence of
events passed to `onEvent` is a permutation of the input that is sorted by
timestamp, and for each timestamp value the events carrying it appear in
original input order — i.e. it is exactly the stable sort of the input
log. -/
theorem C2_delivery_order (input : List Event) (s wc wp : ℚ) (ws : List ℚ)
    (hv : ∀ e ∈ input, e.timestamp.isSome)
    (hdom : ∃ w ∈ ws, ∀ e ∈ input,
      due (getSimTime (play (mkPlayer input none s wc) s wp) w) e = true) :
    ((runTicks (play (mkPlayer input none s wc) s wp) ws).2).Perm input ∧
    ((runTicks (play (mkPlayer input none s wc) s wp) ws).2).Pairwise
      (fun a b => sortLE a b = true) ∧
    ∀ t : ℚ, ((runTicks (play (mkPlayer input none s wc) s wp) ws).2).filter
        (fun e => decide (e.timestamp = some t)) =
      input.filter (fun e => decide (e.timestamp = some t)) := by
  have hev : (play (mkPlayer input none s wc) s wp).events = sortEvents input := by
    rw [play_events_t]
    rfl
  have hptr : (play (mkPlayer input none s wc) s wp).pointer = 0 := by
    rw [play_pointer_t]
    rfl
  have htm : (play (mkPlayer input none s wc) s wp).timer = true :=
    play_timer_t _ _ _ rfl
  have hdom2 : ∃ w ∈ ws, ∀ e ∈ (play (mkPlayer input none s wc) s wp).events.drop
      (play (mkPlayer input none s wc) s wp).pointer,
      due (getSimTime (play (mkPlayer input none s wc) s wp) w) e = true := by
    obtain ⟨w, hwm, hall⟩ := hdom
    refine ⟨w, hwm, fun e he => ?_⟩
    rw [hptr, List.drop_zero, hev] at he
    exact hall e ((sortEvents_perm input).mem_iff.mp he)
  have hcomp := runTicks_complete ws _ htm hdom2
  rw [hptr, List.drop_zero, hev] at hcomp
  rw [hcomp]
  exact ⟨sortEvents_perm input, sortEvents_pairwise input hv,
    fun t => sortEvents_filter input t hv⟩

/-- Witness for C2 at a concrete out-of-order log with a timestamp tie. -/
theorem C2_witness :
    ((runTicks (play (mkPlayer [⟨0, some 5⟩, ⟨1, some 5⟩, ⟨2, some 1⟩] none 1 1000) 1 1000)
        [100000]).2).Perm [⟨0, some 5⟩, ⟨1, some 5⟩, ⟨2, some 1⟩] := by
  refine (C2_delivery_order [⟨0, some 5⟩, ⟨1, some 5⟩, ⟨2, some 1⟩] 1 1000 1000 [100000]
    (by decide) ⟨100000, by simp, ?_⟩).1
  intro e he
  fin_cases he <;>
    norm_num [due, getSimTime, play, setSpeed, mkPlayer, startOf, sortEvents, insertEv, sortLE]

/-- C3: within a single play session (a run of ticks with no intervening
seek), the delivered sequence is a sublist of the sorted log, so no log
entry is passed to `onEvent` more than once: if the log has no duplicate
entries, neither does the delivered sequence, for every starting state and
every sequence of ticks. -/
theorem C3_at_most_once (p : Player) (ws : List ℚ) (hnd : p.events.Nodup) :
    (runTicks p ws).2.Sublist p.events ∧ (runTicks p ws).2.Nodup := by
  have hsub1 : (runTicks p ws).2.Sublist (p.events.drop p.pointer) := by
    rw [← runTicks_slice ws p]
    exact List.sublist_append_left _ _
  have hsub : (runTicks p ws).2.Sublist p.events :=
    hsub1.trans (List.drop_sublist _ _)
  exact ⟨hsub, hsub.nodup hnd⟩

/-- Witness for C3 at a concrete two-event log. -/
theorem C3_witness :
    (runTicks (play (mkPlayer [⟨0, some 0⟩, ⟨1, some 50⟩] none 1 1000) 1 1000) [2000]).2.Nodup :=
  (C3_at_most_once (play (mkPlayer [⟨0, some 0⟩, ⟨1, some 50⟩] none 1 1000) 1 1000) [2000]
    (by decide)).2

/-- C4: for every target time `t`, `seek(t)` sets the simulated time to
exactly `t` (both the cached `simNow` and the value `getSimTime` computes
at the call instant), re-anchors the wall-clock base, leaves the log and
the timer untouched, and relocates the cursor to the first event with
timestamp ≥ `t` — every earlier event fails the test, the event at the
cursor (if any) passes it, and the cursor is clamped to the log length
when no event qualifies.  `seek` performs no delivery: its result carries
no delivered events. -/
theorem C4_seek_spec (p : Player) (t w : ℚ) :
    getSimTime (seek p (some t) w) w = some t ∧
    (seek p (some t) w).simNow = some t ∧
    (seek p (some t) w).baseSim = some t ∧
    (seek p (some t) w).baseReal = some w ∧
    (seek p (some t) w).timer = p.timer ∧
    (seek p (some t) w).events = p.events ∧
    (seek p (some t) w).pointer ≤ p.events.length ∧
    (∀ e ∈ p.events.take (seek p (some t) w).pointer, atOrAfter (some t) e = false) ∧
    (∀ e, (p.events.drop (seek p (some t) w).pointer).head? = some e →
      atOrAfter (some t) e = true) := by
  refine ⟨seek_getSimTime p t w, rfl, rfl, rfl, rfl, rfl, ?_, ?_, ?_⟩
  · exact findIdxGE_le_length (some t) p.events
  · exact findIdxGE_take (some t) p.events
  · exact findIdxGE_head (some t) p.events

/-- Witness for C4: seeking to t = 5 in a one-event log. -/
theorem C4_witness :
    getSimTime (seek (mkPlayer [⟨0, some 10⟩] none 1 100) (some 5) 200) 200 = some 5 ∧
    (seek (mkPlayer [⟨0, some 10⟩] none 1 100) (some 5) 200).pointer ≤ 1 := by
  have h := C4_seek_spec (mkPlayer [⟨0, some 10⟩] none 1 100) 5 200
  refine ⟨h.1, ?_⟩
  have h2 := h.2.2.2.2.2.2.1
  simpa [mkPlayer, sortEvents, insertEv] using h2

/-- Counterexample to C5 as stated: a second `play()` while running is not
a state no-op — it runs `setSpeed` first, which re-bases the anchor.  With
one event at t = 0, `play` at wall time 1000 and a second `play` at wall
time 3000, the anchored simulated time changes from 0 to 2000 and the
anchor wall time from 1000 to 3000. -/
theorem C5_play_not_idempotent :
    (play (play (mkPlayer [⟨0, some 0⟩] none 1 900) 1 1000) 1 3000).baseSim ≠
      (play (mkPlayer [⟨0, some 0⟩] none 1 900) 1 1000).baseSim ∧
    (play (play (mkPlayer [⟨0, some 0⟩] none 1 900) 1 1000) 1 3000).baseReal ≠
      (play (mkPlayer [⟨0, some 0⟩] none 1 900) 1 1000).baseReal := by
  constructor <;>
    norm_num [mkPlayer, play, setSpeed, pause, getSimTime, sortEvents, insertEv, startOf]

/-- C5 amended: a second `play()` while running does not restart the timer
and leaves the observable `currentTime()` unchanged at the instant of the
call (the `setSpeed` re-anchor is time-continuous), and it leaves the log
and cursor untouched; but it does re-base the anchor to the current wall
time, so the full scheduler state equals that of a single call only when
no wall-clock time elapsed between the calls. -/
theorem C5_play_amended (p : Player) (s w : ℚ) (ht : p.timer = true) :
    play (play p s w) s w = play p s w ∧
    (play p s w).timer = true ∧
    getSimTime (play p s w) w = getSimTime p w ∧
    (play p s w).events = p.events ∧
    (play p s w).pointer = p.pointer ∧
    (play p s w).baseReal = some w := by
  refine ⟨play_play p s w, ?_, ?_, play_events_t p s w, play_pointer_t p s w, ?_⟩
  · rw [play_timer_run p s w ht]
    exact ht
  · rw [play_timer_run p s w ht]
    exact getSimTime_setSpeed p s w
  · rw [play_timer_run p s w ht]
    rfl

/-- Witness for C5 at a concrete running player. -/
theorem C5_witness :
    play (play (play (mkPlayer [⟨0, some 0⟩] none 1 1000) 1 1000) 1 2000) 1 2000 =
      play (play (mkPlayer [⟨0, some 0⟩] none 1 1000) 1 1000) 1 2000 :=
  (C5_play_amended (play (mkPlayer [⟨0, some 0⟩] none 1 1000) 1 1000) 1 2000 rfl).1

/-- C6: `setSpeed` is time-continuous — for every player state and every
new factor, `getSimTime` evaluated at the wall instant of the `setSpeed`
call returns the same value before and after the call. -/
theorem C6_setSpeed_time_continuous (p : Player) (s w : ℚ) :
    getSimTime (setSpeed p s w) w = getSimTime p w :=
  getSimTime_setSpeed p s w

/-- C7: when the cursor reaches the log length during a tick, the tick
clears the timer (auto-pause), and with the timer cleared no later
scheduled tick fires — the run returns immediately with no deliveries.
In particular, a player built over the empty log reaches this exhausted
state on the very first tick after `play()`, delivering nothing. -/
theorem C7_exhaustion (p : Player) (w : ℚ) (ws : List ℚ) (s wc wp w2 : ℚ) :
    ((tick p w).1.events.length ≤ (tick p w).1.pointer → (tick p w).1.timer = false) ∧
    ((tick p w).1.timer = false → runTicks (tick p w).1 ws = ((tick p w).1, [])) ∧
    (tick (play (mkPlayer [] none s wc) s wp) w2).1.timer = false ∧
    (tick (play (mkPlayer [] none s wc) s wp) w2).2 = [] := by
  refine ⟨tick_timer_of_exhaust p w, fun h => runTicks_paused _ ws h, ?_, ?_⟩
  · simp [tick, play, setSpeed, mkPlayer, pause, spanDue, getSimTime, startOf, sortEvents]
  · simp [tick, play, setSpeed, mkPlayer, pause, spanDue, getSimTime, startOf, sortEvents]

/-- Witness for C7: a one-event log auto-pauses on a tick that delivers
its only event. -/
theorem C7_witness :
    (tick (play (mkPlayer [⟨0, some 7⟩] none 1 1000) 1 1000) 600000).1.timer = false := by
  apply (C7_exhaustion (play (mkPlayer [⟨0, some 7⟩] none 1 1000) 1 1000) 600000 [] 1 1 1 1).1
  norm_num [tick, play, setSpeed, mkPlayer, pause, getSimTime, startOf, sortEvents,
    insertEv, spanDue, due]

/-- C8: a malformed timestamp does not merely exclude its own record — it
stalls delivery permanently.  With the log [t=0, malformed, t=10], speed 1
and ticks long after t = 10, only the t=0 record is ever delivered: the
`while` loop stops at the malformed record (a `NaN` comparison is false),
the cursor never passes it, the well-formed t=10 record is never
delivered, and the player never auto-pauses (the timer stays installed),
contradicting the claim that later well-formed records are still
delivered. -/
theorem C8_malformed_timestamp_stalls :
    (runTicks (play (mkPlayer [⟨0, some 0⟩, ⟨1, none⟩, ⟨2, some 10⟩] none 1 1000) 1 1000)
        [1000000, 2000000]).2 = [⟨0, some 0⟩] ∧
    (runTicks (play (mkPlayer [⟨0, some 0⟩, ⟨1, none⟩, ⟨2, some 10⟩] none 1 1000) 1 1000)
        [1000000, 2000000]).1.pointer = 1 ∧
    (runTicks (play (mkPlayer [⟨0, some 0⟩, ⟨1, none⟩, ⟨2, some 10⟩] none 1 1000) 1 1000)
        [1000000, 2000000]).1.timer = true := by
  refine ⟨?_, ?_, ?_⟩ <;>
    norm_num [mkPlayer, play, setSpeed, pause, getSimTime, sortEvents, insertEv, startOf,
      runTicks, tick, spanDue, due, sortLE]

/-- Counterexample to C9 as stated: `stepForward` searches for the first
event with timestamp strictly greater than the current simulated time,
which at the initial state already equals the first event's timestamp —
so repeated stepping on the log [t=0, t=4000, t=10000] delivers only the
second and third events and never the first. -/
theorem C9_step_skips_first :
    (runSteps (mkPlayer [⟨0, some 0⟩, ⟨1, some 4000⟩, ⟨2, some 10000⟩] (some 0) 1 1000)
        [2000, 2000, 2000]).2 = [⟨1, some 4000⟩, ⟨2, some 10000⟩] ∧
    (⟨0, some 0⟩ : Event) ∉
      (runSteps (mkPlayer [⟨0, some 0⟩, ⟨1, some 4000⟩, ⟨2, some 10000⟩] (some 0) 1 1000)
        [2000, 2000, 2000]).2 := by
  constructor <;>
    norm_num [mkPlayer, play, setSpeed, pause, getSimTime, sortEvents, insertEv, startOf,
      runSteps, stepForward, seek, afterNow, findIdxGE, atOrAfter, sortLE, List.find?]

/-- C9 amended: `stepForward` pauses the timer, finds the first event with
timestamp strictly greater than the current simulated time, seeks to its
exact timestamp and delivers exactly that event; from the initial state of
a log with strictly increasing timestamps, repeated clicks with no
wall-clock time elapsing between them deliver every event EXCEPT the first
(whose timestamp equals the initial simulated time), one per click, in
order. -/
theorem C9_step_amended (es : List Event) (s wc w : ℚ)
    (hv : ∀ e ∈ es, e.timestamp.isSome)
    (hs : es.Pairwise (fun a b => strictBefore a b = true))
    (hne : es ≠ []) :
    (runSteps (mkPlayer es none s wc) (List.replicate (es.length - 1) w)).2 = es.tail := by
  cases es with
  | nil => exact absurd rfl hne
  | cons cur rest =>
    have hsorted : sortEvents (cur :: rest) = cur :: rest :=
      sortEvents_eq_self _ (strict_pairwise_sortLE _ hs)
    have hev : (mkPlayer (cur :: rest) none s wc).events = [] ++ cur :: rest := by
      show sortEvents (cur :: rest) = [] ++ cur :: rest
      rw [hsorted]
      rfl
    have hnow : getSimTime (mkPlayer (cur :: rest) none s wc) w = cur.timestamp := by
      show startOf (sortEvents (cur :: rest)) none wc = cur.timestamp
      rw [hsorted]
      rfl
    have hv2 : ∀ e ∈ (mkPlayer (cur :: rest) none s wc).events, e.timestamp.isSome := by
      rw [hev]
      simpa using hv
    have hs2 : (mkPlayer (cur :: rest) none s wc).events.Pairwise
        (fun a b => strictBefore a b = true) := by
      rw [hev]
      simpa using hs
    have hlen : (cur :: rest).length - 1 = rest.length := by simp
    rw [hlen]
    exact step_run w rest [] cur _ hev hv2 hs2 hnow

/-- Witness for the amended C9 at the three-event log. -/
theorem C9_witness :
    (runSteps (mkPlayer [⟨0, some 0⟩, ⟨1, some 4000⟩, ⟨2, some 10000⟩] none 1 1000)
        (List.replicate 2 700)).2 = [⟨1, some 4000⟩, ⟨2, some 10000⟩] := by
  have h := C9_step_amended [⟨0, some 0⟩, ⟨1, some 4000⟩, ⟨2, some 10000⟩] 1 1000 700
    (by decide) (by decide) (by decide)
  simpa using h

/-- C10: no player operation mutates the log or the caller's input — in
the embedding every operation returns a state whose `events` field is the
constructor's (a sorted permutation of the input, with the very same
records), and delivered events are always members of that log. -/
theorem C10_no_mutation (input : List Event) (st : Option ℚ) (s wc w : ℚ)
    (tg : Option ℚ) (p : Player) (ws : List ℚ) :
    ((mkPlayer input st s wc).events).Perm input ∧
    (play p s w).events = p.events ∧
    (pause p).events = p.events ∧
    (setSpeed p s w).events = p.events ∧
    (seek p tg w).events = p.events ∧
    (tick p w).1.events = p.events ∧
    (runTicks p ws).1.events = p.events ∧
    (stepForward p w).1.events = p.events ∧
    (∀ e ∈ (tick p w).2, e ∈ p.events) ∧
    (∀ e ∈ (stepForward p w).2, e ∈ p.events) := by
  refine ⟨sortEvents_perm input, play_events_t p s w, rfl, rfl, rfl,
    tick_events p w, runTicks_events ws p, stepForward_events_t p w, ?_, ?_⟩
  · intro e he
    have hm : e ∈ (tick p w).2 ++ p.events.drop (tick p w).1.pointer :=
      List.mem_append_left _ he
    rw [tick_drop] at hm
    exact (List.drop_sublist _ _).subset hm
  · intro e he
    revert he
    unfold stepForward
    cases hf : (pause p).events.find? (afterNow (getSimTime (pause p) w)) with
    | none => intro he; simp at he
    | some x =>
      intro he
      have hex : e = x := by simpa using he
      subst hex
      exact List.mem_of_find?_eq_some hf

/-- Witness for C10 at a concrete two-event log. -/
theorem C10_witness :
    ((mkPlayer [⟨1, some 5⟩, ⟨0, some 3⟩] none 1 100).events).Perm
      [⟨1, some 5⟩, ⟨0, some 3⟩] :=
  (C10_no_mutation [⟨1, some 5⟩, ⟨0, some 3⟩] none 1 100 0 none
    (mkPlayer [] none 1 0) []).1

end Fleet
